import Mathlib

/-!
Verification of the uevloop event-loop core against its specification.

The repository ships the spec, the public header of the object pool, the
configuration header and the application test-suite; the C translation units
of the circular queue, object pool, scheduler, event loop and signal relay
are not present. Each definition below is therefore a shallow embedding
modelled from the specification's description of the missing unit (and, where
the test-suite in the repository pins the behaviour, from those assertions).
Handles (void pointers in C) are modelled as natural numbers.
-/

/- ### Circular queue (utils/circular-queue) -/

/-- Modelled from the spec: the circular queue state of the missing
`utils/circular-queue.c` — backing buffer of `2^k` opaque handles, unsigned
`head`/`tail` indices, a `count` field disambiguating empty from full, with
all index arithmetic bit-masked by `capacity - 1`. -/
structure uel_cqueue where
  buffer : List Nat
  size : Nat
  mask : Nat
  tail : Nat
  head : Nat
  count : Nat
deriving DecidableEq, Repr

/-- Modelled from the spec: `cqueue_init` of the missing circular-queue unit —
binds a zeroed backing array of `1 <<< size_log2n` slots, `head = tail = count = 0`. -/
def uel_cqueue_init (size_log2n : Nat) : uel_cqueue :=
  { buffer := List.replicate (2 ^ size_log2n) 0
    size := 2 ^ size_log2n
    mask := 2 ^ size_log2n - 1
    tail := 0
    head := 0
    count := 0 }

/-- Modelled from the spec: `cqueue_is_full` — the queue is full when `count`
reaches the capacity. -/
def uel_cqueue_is_full (q : uel_cqueue) : Bool :=
  q.count == q.size

/-- Modelled from the spec: `cqueue_is_empty` — the queue is empty when
`count` is zero. -/
def uel_cqueue_is_empty (q : uel_cqueue) : Bool :=
  q.count == 0

/-- Modelled from the spec: `cqueue_count`. -/
def uel_cqueue_count (q : uel_cqueue) : Nat :=
  q.count

/-- Modelled from the spec: `cqueue_push` of the missing circular-queue unit —
appends at the masked `tail` index and fails with no side effect when full. -/
def uel_cqueue_push (q : uel_cqueue) (x : Nat) : uel_cqueue × Bool :=
  if uel_cqueue_is_full q then (q, false)
  else
    ({ q with
        buffer := q.buffer.set (q.tail &&& q.mask) x
        tail := q.tail + 1
        count := q.count + 1 }, true)

/-- Modelled from the spec: `cqueue_pop` of the missing circular-queue unit —
removes the handle at the masked `head` index, `none` when empty. -/
def uel_cqueue_pop (q : uel_cqueue) : Option (Nat × uel_cqueue) :=
  if uel_cqueue_is_empty q then none
  else
    some (q.buffer.getD (q.head &&& q.mask) 0,
      { q with head := q.head + 1, count := q.count - 1 })

/-- Modelled from the spec: `cqueue_peek` — non-destructive read of the head. -/
def uel_cqueue_peek (q : uel_cqueue) : Option Nat :=
  if uel_cqueue_is_empty q then none
  else some (q.buffer.getD (q.head &&& q.mask) 0)

/-- Well-formedness of a circular queue: capacity is a power of two matching
the buffer length and the mask, the count fits, and `tail` is `head` advanced
by `count`. -/
def cq_wf (q : uel_cqueue) : Prop :=
  ∃ k : Nat, q.size = 2 ^ k ∧ q.mask = 2 ^ k - 1 ∧
    q.buffer.length = 2 ^ k ∧ q.count ≤ 2 ^ k ∧ q.tail = q.head + q.count

/-- The abstract contents of a circular queue, head first. -/
def cq_toList (q : uel_cqueue) : List Nat :=
  (List.range q.count).map (fun i => q.buffer.getD ((q.head + i) &&& q.mask) 0)

example : (uel_cqueue_push (uel_cqueue_init 2) 7).2 = true := by decide

example :
    cq_toList (uel_cqueue_push (uel_cqueue_push (uel_cqueue_init 2) 7).1 9).1 = [7, 9] := by
  decide

example :
    (uel_cqueue_pop (uel_cqueue_push (uel_cqueue_push (uel_cqueue_init 1) 7).1 9).1).map
      (fun p => p.1) = some 7 := by decide

theorem cq_push_full (q : uel_cqueue) (x : Nat) (h : q.count = q.size) :
    uel_cqueue_push q x = (q, false) := by
  simp [uel_cqueue_push, uel_cqueue_is_full, h]

theorem cq_mask_mod (k a : Nat) : a &&& (2 ^ k - 1) = a % 2 ^ k :=
  Nat.and_pow_two_sub_one_eq_mod a k

theorem cq_push_not_full (q : uel_cqueue) (x : Nat) (hwf : cq_wf q)
    (h : q.count < q.size) :
    (uel_cqueue_push q x).2 = true ∧ cq_wf (uel_cqueue_push q x).1 ∧
      cq_toList (uel_cqueue_push q x).1 = cq_toList q ++ [x] ∧
      (uel_cqueue_push q x).1.count = q.count + 1 := by
  obtain ⟨k, hsize, hmask, hlen, hcnt, htail⟩ := hwf
  have hne : (q.count == q.size) = false := by
    simp only [beq_eq_false_iff_ne]
    omega
  have hlt : q.count < 2 ^ k := by omega
  simp only [uel_cqueue_push, uel_cqueue_is_full, hne, Bool.false_eq_true, if_false]
  refine ⟨by trivial, ⟨k, hsize, hmask, by simpa using hlen,
    show q.count + 1 ≤ 2 ^ k by omega,
    show q.tail + 1 = q.head + (q.count + 1) by omega⟩, ?_, by trivial⟩
  simp only [cq_toList, List.range_succ, List.map_append, List.map_cons, List.map_nil]
  congr 1
  · apply List.map_congr_left
    intro i hi
    have hi' : i < q.count := List.mem_range.mp hi
    have hne2 : q.tail &&& q.mask ≠ (q.head + i) &&& q.mask := by
      rw [hmask, cq_mask_mod, cq_mask_mod, htail]
      intro hcontra
      have : q.count % 2 ^ k = i % 2 ^ k := Nat.ModEq.add_left_cancel' q.head hcontra
      rw [Nat.mod_eq_of_lt hlt, Nat.mod_eq_of_lt (by omega)] at this
      omega
    simp [List.getD_eq_getElem?_getD, List.getElem?_set_ne hne2]
  · have hpos : q.tail &&& q.mask < q.buffer.length := by
      rw [hmask, cq_mask_mod, hlen]
      exact Nat.mod_lt _ (Nat.pos_pow_of_pos k (by omega))
    have : q.head + q.count = q.tail := htail.symm
    simp [this, List.getD_eq_getElem?_getD, List.getElem?_set_self hpos]

theorem cq_pop_empty (q : uel_cqueue) (h : q.count = 0) :
    uel_cqueue_pop q = none := by
  simp [uel_cqueue_pop, uel_cqueue_is_empty, h]

theorem cq_pop_nonempty (q : uel_cqueue) (hwf : cq_wf q) (h : 0 < q.count) :
    ∃ x q', uel_cqueue_pop q = some (x, q') ∧ cq_wf q' ∧
      cq_toList q = x :: cq_toList q' ∧ q'.count = q.count - 1 := by
  obtain ⟨k, hsize, hmask, hlen, hcnt, htail⟩ := hwf
  have hne : (q.count == 0) = false := by
    simp only [beq_eq_false_iff_ne]
    omega
  refine ⟨q.buffer.getD (q.head &&& q.mask) 0,
    { q with head := q.head + 1, count := q.count - 1 }, ?_, ?_, ?_, rfl⟩
  · simp [uel_cqueue_pop, uel_cqueue_is_empty, hne]
  · exact ⟨k, hsize, hmask, hlen, show q.count - 1 ≤ 2 ^ k by omega,
      show q.tail = (q.head + 1) + (q.count - 1) by omega⟩
  · simp only [cq_toList]
    have hc : q.count = (q.count - 1) + 1 := by omega
    rw [hc, List.range_succ_eq_map, List.map_cons, List.map_map]
    simp only [Nat.add_zero]
    congr 1
    apply List.map_congr_left
    intro i hi
    have : q.head + Nat.succ i = q.head + 1 + i := by omega
    simp [Function.comp, this]

/-- An operation on a circular queue, for whole-trace statements. -/
inductive QOp where
  | push (x : Nat)
  | pop
deriving DecidableEq, Repr

/-- Runs a sequence of operations on a circular queue; returns the final
queue, the successfully pushed handles and the popped handles, in order. -/
def cq_run : uel_cqueue → List QOp → uel_cqueue × List Nat × List Nat
  | q, [] => (q, [], [])
  | q, QOp.push x :: ops =>
    let r := uel_cqueue_push q x
    let rest := cq_run r.1 ops
    (rest.1, (if r.2 then [x] else []) ++ rest.2.1, rest.2.2)
  | q, QOp.pop :: ops =>
    match uel_cqueue_pop q with
    | none => cq_run q ops
    | some (x, q') =>
      let rest := cq_run q' ops
      (rest.1, rest.2.1, x :: rest.2.2)

theorem cq_run_fifo (ops : List QOp) (q : uel_cqueue) (hwf : cq_wf q) :
    (cq_run q ops).2.2 ++ cq_toList (cq_run q ops).1 =
      cq_toList q ++ (cq_run q ops).2.1 := by
  induction ops generalizing q with
  | nil => simp [cq_run]
  | cons op ops ih =>
    cases op with
    | push x =>
      rcases Nat.lt_or_ge q.count q.size with hlt | hge
      · obtain ⟨hsnd, hwf', htl, _⟩ := cq_push_not_full q x hwf hlt
        have := ih (uel_cqueue_push q x).1 hwf'
        simp only [cq_run, hsnd, if_true]
        rw [this, htl]
        simp
      · have hfull : q.count = q.size := by
          obtain ⟨k, hsize, _, _, hcnt, _⟩ := hwf
          omega
        have heq := cq_push_full q x hfull
        simp only [cq_run, heq]
        simpa using ih q hwf
    | pop =>
      rcases Nat.eq_zero_or_pos q.count with hz | hpos
      · have heq := cq_pop_empty q hz
        have htl : cq_toList q = [] := by
          simp [cq_toList, hz]
        simp only [cq_run, heq]
        simpa [htl] using ih q hwf
      · obtain ⟨x, q', heq, hwf', htl, _⟩ := cq_pop_nonempty q hwf hpos
        simp only [cq_run, heq]
        rw [htl]
        simpa using ih q' hwf'

theorem cq_wf_init (k : Nat) : cq_wf (uel_cqueue_init k) :=
  ⟨k, rfl, rfl, by simp [uel_cqueue_init], by simp [uel_cqueue_init], rfl⟩

theorem cq_toList_init (k : Nat) : cq_toList (uel_cqueue_init k) = [] := by
  simp [cq_toList, uel_cqueue_init]

/-- C8: for every sequence of push and pop operations on a circular queue of
capacity `2^k`, the popped handles followed by the remaining contents equal
the successfully pushed handles in FIFO order (in particular, when the queue
ends empty, popped = pushed); and a push attempted while the queue is full
returns `false` and has no side effect at all. -/
theorem claim_C8_cqueue_fifo (k : Nat) (ops : List QOp) :
    ((cq_run (uel_cqueue_init k) ops).2.2 ++
        cq_toList (cq_run (uel_cqueue_init k) ops).1 =
      (cq_run (uel_cqueue_init k) ops).2.1) ∧
    ((cq_run (uel_cqueue_init k) ops).1.count = 0 →
      (cq_run (uel_cqueue_init k) ops).2.2 = (cq_run (uel_cqueue_init k) ops).2.1) ∧
    (∀ q : uel_cqueue, ∀ x : Nat, uel_cqueue_is_full q = true →
      uel_cqueue_push q x = (q, false)) := by
  have hmain := cq_run_fifo ops (uel_cqueue_init k) (cq_wf_init k)
  rw [cq_toList_init] at hmain
  simp only [List.nil_append] at hmain
  refine ⟨hmain, ?_, ?_⟩
  · intro hempty
    have : cq_toList (cq_run (uel_cqueue_init k) ops).1 = [] := by
      simp [cq_toList, hempty]
    rw [this, List.append_nil] at hmain
    exact hmain
  · intro q x hfull
    have : q.count = q.size := by
      simpa [uel_cqueue_is_full] using hfull
    exact cq_push_full q x this

/-- Witness for C8 at a concrete queue of capacity 2 and a concrete
operation sequence ending with a push on a full queue. -/
theorem claim_C8_witness :
    uel_cqueue_push
        (uel_cqueue_push (uel_cqueue_push (uel_cqueue_init 1) 5).1 6).1 7 =
      ((uel_cqueue_push (uel_cqueue_push (uel_cqueue_init 1) 5).1 6).1, false) :=
  (claim_C8_cqueue_fifo 1 [QOp.push 5]).2.2
    (uel_cqueue_push (uel_cqueue_push (uel_cqueue_init 1) 5).1 6).1 7 (by decide)

/- ### Object pool (utils/object-pool) -/

/-- Modelled from the spec: the object pool of `utils/object-pool.c` (only the
header `object-pool.h` is in the repository) — a buffer of slots plus a
circular queue holding the free slot handles. Slot contents are modelled as
naturals, slot handles as buffer indices. -/
structure uel_objpool where
  buffer : List Nat
  queue : uel_cqueue
deriving DecidableEq, Repr

/-- Modelled from the spec: `uel_objpool_init` — populates the free queue
with the handle of every slot, in slot order. -/
def uel_objpool_init (size_log2n : Nat) : uel_objpool :=
  { buffer := List.replicate (2 ^ size_log2n) 0
    queue := (List.range (2 ^ size_log2n)).foldl
      (fun q i => (uel_cqueue_push q i).1) (uel_cqueue_init size_log2n) }

/-- Modelled from the spec: `uel_objpool_acquire` — pops a slot handle from
the free queue; `none` when depleted. Slot contents are not touched. -/
def uel_objpool_acquire (p : uel_objpool) : Option Nat × uel_objpool :=
  match uel_cqueue_pop p.queue with
  | none => (none, p)
  | some (h, q') => (some h, { p with queue := q' })

/-- Modelled from the spec: `uel_objpool_release` — pushes the handle back
onto the free queue; returns whether the push succeeded. -/
def uel_objpool_release (p : uel_objpool) (h : Nat) : uel_objpool × Bool :=
  let r := uel_cqueue_push p.queue h
  ({ p with queue := r.1 }, r.2)

/-- Modelled from the spec: `uel_objpool_is_empty` — the pool is depleted
when its free queue is empty. -/
def uel_objpool_is_empty (p : uel_objpool) : Bool :=
  uel_cqueue_is_empty p.queue

theorem cq_toList_of_count_zero (q : uel_cqueue) (h : q.count = 0) :
    cq_toList q = [] := by
  simp [cq_toList, h]

/-- C7: for a pool whose slots are all outstanding (free queue empty),
`acquire` returns the `none` sentinel and leaves the pool unchanged; after
exactly one `release` the next `acquire` succeeds (returning the released
slot); and `acquire` never clears any slot's contents. -/
theorem claim_C7_objpool_exhaustion (p : uel_objpool) (hwf : cq_wf p.queue)
    (hempty : uel_objpool_is_empty p = true) :
    uel_objpool_acquire p = (none, p) ∧
    (∀ h : Nat, (uel_objpool_acquire (uel_objpool_release p h).1).1 = some h) ∧
    (∀ p₂ : uel_objpool, (uel_objpool_acquire p₂).2.buffer = p₂.buffer) := by
  have hcz : p.queue.count = 0 := by
    simpa [uel_objpool_is_empty, uel_cqueue_is_empty] using hempty
  refine ⟨?_, ?_, ?_⟩
  · simp [uel_objpool_acquire, cq_pop_empty p.queue hcz]
  · intro h
    have hsz : 0 < p.queue.size := by
      obtain ⟨k, hsize, _⟩ := hwf
      rw [hsize]
      exact Nat.pos_pow_of_pos k (by omega)
    obtain ⟨_, hwf', htl, hcnt⟩ :=
      cq_push_not_full p.queue h hwf (by omega)
    rw [cq_toList_of_count_zero p.queue hcz] at htl
    obtain ⟨x, q'', hpop, _, htl', _⟩ :=
      cq_pop_nonempty (uel_cqueue_push p.queue h).1 hwf' (by omega)
    rw [htl] at htl'
    have hx : x = h := by
      simpa using congrArg (fun l => l.headD 0) htl'.symm
    simp [uel_objpool_release, uel_objpool_acquire, hpop, hx]
  · intro p₂
    cases hpop : uel_cqueue_pop p₂.queue with
    | none => simp [uel_objpool_acquire, hpop]
    | some r => simp [uel_objpool_acquire, hpop]

/-- Witness for C7 at a concrete pool of capacity 2 with both slots
outstanding. -/
theorem claim_C7_witness :
    uel_objpool_acquire
        (uel_objpool_acquire (uel_objpool_acquire (uel_objpool_init 1)).2).2 =
      (none, (uel_objpool_acquire (uel_objpool_acquire (uel_objpool_init 1)).2).2) ∧
    (uel_objpool_acquire
        (uel_objpool_release
          (uel_objpool_acquire (uel_objpool_acquire (uel_objpool_init 1)).2).2 3).1).1 =
      some 3 := by
  have := claim_C7_objpool_exhaustion
    (uel_objpool_acquire (uel_objpool_acquire (uel_objpool_init 1)).2).2
    ⟨1, by decide, by decide, by decide, by decide, by decide⟩ (by decide)
  exact ⟨this.1, this.2.1 3⟩

/- ### Event loop runloop snapshot (system/event-loop) -/

/-- Modelled from the spec: the popping loop of `uel_evloop_run` in the
missing `system/event-loop.c` — the queue count is read at entry and exactly
that many events are popped; invoking an event's closure may enqueue further
events, modelled by the `spawn` function giving, for each event handle, the
handles it enqueues when invoked. Returns the invoked handles in order and
the final event queue. -/
def uel_evloop_steps (spawn : Nat → List Nat) :
    Nat → List Nat → List Nat × List Nat
  | 0, q => ([], q)
  | _ + 1, [] => ([], [])
  | n + 1, e :: rest =>
    let r := uel_evloop_steps spawn n (rest ++ spawn e)
    (e :: r.1, r.2)

/-- Modelled from the spec: `uel_evloop_run` of the missing
`system/event-loop.c` — drains the snapshot of the event queue present at
entry. -/
def uel_evloop_run (spawn : Nat → List Nat) (q : List Nat) :
    List Nat × List Nat :=
  uel_evloop_steps spawn q.length q

theorem uel_evloop_steps_spec (spawn : Nat → List Nat) (n : Nat)
    (q : List Nat) (h : n ≤ q.length) :
    uel_evloop_steps spawn n q =
      (q.take n, q.drop n ++ (q.take n).flatMap spawn) := by
  induction n generalizing q with
  | zero => simp [uel_evloop_steps]
  | succ n ih =>
    cases q with
    | nil => simp at h
    | cons e rest =>
      have hn : n ≤ rest.length := by
        simpa using h
      simp only [uel_evloop_steps, ih (rest ++ spawn e) (by simp; omega)]
      rw [List.take_append_of_le_length hn, List.drop_append_of_le_length hn]
      simp [List.flatMap_cons]

/-- C1: a single call to `run()` invokes exactly the events present in the
event queue at entry (exactly `n` closures where `n` is the queue count at
entry, in order); events enqueued by the invoked closures are not processed
within the same call but remain queued, in order, for the next run. -/
theorem claim_C1_run_snapshot (spawn : Nat → List Nat) (q : List Nat) :
    (uel_evloop_run spawn q).1 = q ∧
    (uel_evloop_run spawn q).2 = q.flatMap spawn := by
  rw [uel_evloop_run, uel_evloop_steps_spec spawn q.length q le_rfl]
  simp

/- ### Scheduler and tick (system/scheduler, system/event-loop, application) -/

/-- Modelled from the spec: a TIMER event of the missing `system/event.c` —
`due_time`, `period`, `repeating` and `immediate` fields. `seq` tags the
order in which events were configured (events are distinct pool objects in C;
the tag stands for their identity/insertion order). -/
structure uel_event where
  seq : Nat
  due_time : Nat
  period : Nat
  repeating : Bool
  immediate : Bool
deriving DecidableEq, Repr

/-- Modelled from the spec: `uel_event_config_timer` of the missing
`system/event.c` — sets `due_time = immediate ? current_time : current_time
+ timeout`. -/
def uel_event_config_timer (seq timeout : Nat) (repeating immediate : Bool)
    (current_time : Nat) : uel_event :=
  { seq := seq
    due_time := if immediate then current_time else current_time + timeout
    period := timeout
    repeating := repeating
    immediate := immediate }

/-- Modelled from the spec: the scheduler of the missing
`system/scheduler.c` together with the two system queues it shares with the
event loop. `dispatched` logs the timer events dispatched by the run loop,
in order, for trace statements. Only TIMER events flow through this model;
bare closure events are covered by the snapshot model above. -/
structure uel_scheduler where
  timer : Nat
  schedule_queue : List uel_event
  timer_list : List uel_event
  event_queue : List uel_event
  next_seq : Nat
  dispatched : List uel_event
deriving DecidableEq, Repr

/-- Modelled from the spec: a freshly initialised scheduler sharing empty
system queues. -/
def uel_sch_init : uel_scheduler :=
  { timer := 0, schedule_queue := [], timer_list := [], event_queue := []
    next_seq := 0, dispatched := [] }

/-- Modelled from the spec: `uel_sch_update_timer` — sets the millisecond
counter; no list walk. -/
def uel_sch_update_timer (s : uel_scheduler) (n : Nat) : uel_scheduler :=
  { s with timer := n }

/-- Modelled from the spec: `uel_sch_run_later` — configures a one-shot,
non-immediate TIMER due at `timer + delay` and pushes it to the schedule
queue. -/
def uel_sch_run_later (s : uel_scheduler) (delay : Nat) : uel_scheduler :=
  let ev := uel_event_config_timer s.next_seq delay false false s.timer
  { s with schedule_queue := s.schedule_queue ++ [ev]
           next_seq := s.next_seq + 1 }

/-- Modelled from the spec: `uel_sch_run_at_intervals` — configures a
repeating TIMER. The destination queue follows the repository's test
`should_proxy_functions`: an immediate timer is pushed directly to the event
queue (it must run on the next runloop), a non-immediate one to the schedule
queue. -/
def uel_sch_run_at_intervals (s : uel_scheduler) (period : Nat)
    (immediate : Bool) : uel_scheduler :=
  let ev := uel_event_config_timer s.next_seq period true immediate s.timer
  if immediate then
    { s with event_queue := s.event_queue ++ [ev]
             next_seq := s.next_seq + 1 }
  else
    { s with schedule_queue := s.schedule_queue ++ [ev]
             next_seq := s.next_seq + 1 }

/-- Modelled from the spec: the ordered insertion of `manage_timers` — the
event is inserted at the first position whose successor has a strictly later
`due_time`, so equal due times preserve insertion order. -/
def uel_sch_insert_timer : List uel_event → uel_event → List uel_event
  | [], e => [e]
  | x :: xs, e =>
    if e.due_time < x.due_time then e :: x :: xs
    else x :: uel_sch_insert_timer xs e

/-- Modelled from the spec: `uel_sch_manage_timers` — drains the schedule
queue into the sorted timer list, then detaches the due prefix of the list
(`due_time ≤ timer`) and pushes it to the event queue in list order. -/
def uel_sch_manage_timers (s : uel_scheduler) : uel_scheduler :=
  let list := s.schedule_queue.foldl uel_sch_insert_timer s.timer_list
  { s with
      schedule_queue := []
      timer_list := list.dropWhile (fun e => decide (e.due_time ≤ s.timer))
      event_queue :=
        s.event_queue ++ list.takeWhile (fun e => decide (e.due_time ≤ s.timer)) }

/-- Modelled from the spec: the TIMER dispatch of `uel_evloop_run` in the
missing `system/event-loop.c` — every event present in the event queue is
dispatched in order; a repeating timer gets `due_time := due_time + period`
and is pushed back to the schedule queue, a one-shot timer is released. -/
def uel_evloop_run_timers (s : uel_scheduler) : uel_scheduler :=
  { s with
      event_queue := []
      dispatched := s.dispatched ++ s.event_queue
      schedule_queue := s.schedule_queue ++
        (s.event_queue.filter (fun e => e.repeating)).map
          (fun e => { e with due_time := e.due_time + e.period }) }

/-- An operation on the scheduler/loop pair, for whole-trace statements. -/
inductive SOp where
  | update (n : Nat)
  | run_later (delay : Nat)
  | run_at_intervals (period : Nat) (immediate : Bool)
  | manage
  | run
deriving DecidableEq, Repr

/-- One step of the scheduler/loop pair. -/
def sch_step (s : uel_scheduler) : SOp → uel_scheduler
  | SOp.update n => uel_sch_update_timer s n
  | SOp.run_later d => uel_sch_run_later s d
  | SOp.run_at_intervals p i => uel_sch_run_at_intervals s p i
  | SOp.manage => uel_sch_manage_timers s
  | SOp.run => uel_evloop_run_timers s

/-- Runs a sequence of operations on the scheduler/loop pair. -/
def sch_reach (s : uel_scheduler) (ops : List SOp) : uel_scheduler :=
  ops.foldl sch_step s

/-- Modelled from the spec: the application container of the missing
`system/containers/application.c`, as pinned by the repository's tests
`should_init_app` and `should_set_uel_scheduer_run_flag` — it owns the
scheduler/loop pair and a `run_scheduler` flag. -/
structure uel_application where
  scheduler : uel_scheduler
  run_scheduler : Bool
deriving DecidableEq, Repr

/-- Modelled from the spec and `should_init_app`: `uel_app_init` leaves the
`run_scheduler` flag set. -/
def uel_app_init : uel_application :=
  { scheduler := uel_sch_init, run_scheduler := true }

/-- Modelled from the spec and the tests: `uel_app_update_timer` forwards to
the scheduler and sets the `run_scheduler` flag. -/
def uel_app_update_timer (a : uel_application) (n : Nat) : uel_application :=
  { scheduler := uel_sch_update_timer a.scheduler n, run_scheduler := true }

/-- Modelled from the spec and `should_set_uel_scheduer_run_flag`:
`uel_app_tick` runs `manage_timers` only when the `run_scheduler` flag is
set, clears the flag, and always runs the event loop. -/
def uel_app_tick (a : uel_application) : uel_application :=
  let s := if a.run_scheduler then uel_sch_manage_timers a.scheduler
           else a.scheduler
  { scheduler := uel_evloop_run_timers s, run_scheduler := false }

example :
    (uel_sch_manage_timers (uel_sch_run_later
      (uel_sch_update_timer uel_sch_init 10) 5)).timer_list =
      [{ seq := 0, due_time := 15, period := 5,
         repeating := false, immediate := false }] := by decide

example :
    (uel_sch_manage_timers (uel_sch_update_timer (uel_sch_run_later
      (uel_sch_update_timer uel_sch_init 10) 5) 20)).event_queue =
      [{ seq := 0, due_time := 15, period := 5,
         repeating := false, immediate := false }] := by decide

/-- Stable scheduling order: earlier due time, or equal due time and earlier
configuration order. -/
def sch_before (a b : uel_event) : Prop :=
  a.due_time ≤ b.due_time ∧ (a.due_time = b.due_time → a.seq < b.seq)

instance (a b : uel_event) : Decidable (sch_before a b) :=
  inferInstanceAs (Decidable (_ ∧ _))

theorem insert_timer_perm (l : List uel_event) (e : uel_event) :
    List.Perm (uel_sch_insert_timer l e) (e :: l) := by
  induction l with
  | nil => exact List.Perm.refl _
  | cons x xs ih =>
    simp only [uel_sch_insert_timer]
    by_cases h : e.due_time < x.due_time
    · rw [if_pos h]
    · rw [if_neg h]
      exact (ih.cons x).trans (List.Perm.swap e x xs)

theorem insert_timer_mem (l : List uel_event) (e a : uel_event)
    (h : a ∈ uel_sch_insert_timer l e) : a = e ∨ a ∈ l := by
  have := (insert_timer_perm l e).mem_iff.mp h
  simpa using this

theorem insert_timer_pairwise_before (l : List uel_event) (e : uel_event)
    (hp : List.Pairwise sch_before l) (hseq : ∀ a ∈ l, a.seq < e.seq) :
    List.Pairwise sch_before (uel_sch_insert_timer l e) := by
  induction l with
  | nil => simp [uel_sch_insert_timer]
  | cons x xs ih =>
    rw [List.pairwise_cons] at hp
    obtain ⟨hx, hxs⟩ := hp
    simp only [uel_sch_insert_timer]
    by_cases h : e.due_time < x.due_time
    · rw [if_pos h]
      rw [List.pairwise_cons]
      refine ⟨?_, List.pairwise_cons.mpr ⟨hx, hxs⟩⟩
      intro y hy
      rcases List.mem_cons.mp hy with rfl | hy'
      · exact ⟨Nat.le_of_lt h, fun heq => absurd heq (by omega)⟩
      · have := (hx y hy').1
        exact ⟨by omega, fun heq => absurd heq (by omega)⟩
    · rw [if_neg h]
      rw [List.pairwise_cons]
      refine ⟨?_, ih hxs (fun a ha => hseq a (List.mem_cons_of_mem x ha))⟩
      intro y hy
      rcases insert_timer_mem xs e y hy with rfl | hy'
      · exact ⟨by omega, fun _ => hseq x (List.mem_cons_self x xs)⟩
      · exact hx y hy'

theorem foldl_insert_timer_pairwise (q : List uel_event) (l : List uel_event)
    (hl : List.Pairwise sch_before l)
    (hq : List.Pairwise (fun a b => a.seq < b.seq) q)
    (hlq : ∀ a ∈ l, ∀ b ∈ q, a.seq < b.seq) :
    List.Pairwise sch_before (q.foldl uel_sch_insert_timer l) ∧
      ∀ a ∈ q.foldl uel_sch_insert_timer l, a ∈ l ∨ a ∈ q := by
  induction q generalizing l with
  | nil => exact ⟨hl, fun a ha => Or.inl ha⟩
  | cons b q ih =>
    rw [List.pairwise_cons] at hq
    obtain ⟨hb, hq'⟩ := hq
    have hl' := insert_timer_pairwise_before l b hl
      (fun a ha => hlq a ha b (List.mem_cons_self b q))
    have hlq' : ∀ a ∈ uel_sch_insert_timer l b, ∀ c ∈ q, a.seq < c.seq := by
      intro a ha c hc
      rcases insert_timer_mem l b a ha with rfl | h
      · exact hb c hc
      · exact hlq a h c (List.mem_cons_of_mem b hc)
    obtain ⟨hp, hm⟩ := ih (uel_sch_insert_timer l b) hl' hq' hlq'
    refine ⟨by simpa using hp, ?_⟩
    intro a ha
    rcases hm a (by simpa using ha) with h | h
    · rcases insert_timer_mem l b a h with rfl | h'
      · exact Or.inr (List.mem_cons_self a q)
      · exact Or.inl h'
    · exact Or.inr (List.mem_cons_of_mem b h)

/-- The invariant backing C3: the timer list is stably sorted, schedule-queue
events carry increasing sequence tags, all newer than anything in the timer
list, and all tags are below `next_seq`. -/
def sch_stable_inv (s : uel_scheduler) : Prop :=
  List.Pairwise sch_before s.timer_list ∧
  List.Pairwise (fun a b => a.seq < b.seq) s.schedule_queue ∧
  (∀ a ∈ s.timer_list, ∀ b ∈ s.schedule_queue, a.seq < b.seq) ∧
  (∀ a ∈ s.timer_list, a.seq < s.next_seq) ∧
  (∀ a ∈ s.schedule_queue, a.seq < s.next_seq)

theorem sch_stable_inv_init : sch_stable_inv uel_sch_init := by
  refine ⟨?_, ?_, ?_, ?_, ?_⟩ <;> simp [uel_sch_init]

theorem sch_stable_inv_push_sched (s : uel_scheduler) (ev : uel_event)
    (hev : ev.seq = s.next_seq) (h : sch_stable_inv s) :
    sch_stable_inv { s with schedule_queue := s.schedule_queue ++ [ev]
                            next_seq := s.next_seq + 1 } := by
  obtain ⟨htl, hsq, hcross, htn, hsn⟩ := h
  refine ⟨htl, ?_, ?_, ?_, ?_⟩
  · show List.Pairwise (fun a b => a.seq < b.seq) (s.schedule_queue ++ [ev])
    rw [List.pairwise_append]
    refine ⟨hsq, List.pairwise_singleton _ _, ?_⟩
    intro a ha b hb
    rcases List.mem_singleton.mp hb with rfl
    rw [hev]
    exact hsn a ha
  · show ∀ a ∈ s.timer_list, ∀ b ∈ s.schedule_queue ++ [ev], a.seq < b.seq
    intro a ha b hb
    rcases List.mem_append.mp hb with hb' | hb'
    · exact hcross a ha b hb'
    · rcases List.mem_singleton.mp hb' with rfl
      rw [hev]
      exact htn a ha
  · show ∀ a ∈ s.timer_list, a.seq < s.next_seq + 1
    intro a ha
    have := htn a ha
    omega
  · show ∀ a ∈ s.schedule_queue ++ [ev], a.seq < s.next_seq + 1
    intro a ha
    rcases List.mem_append.mp ha with ha' | ha'
    · have := hsn a ha'
      omega
    · rcases List.mem_singleton.mp ha' with rfl
      omega

theorem sch_stable_inv_step (s : uel_scheduler) (op : SOp)
    (hop : op ≠ SOp.run) (h : sch_stable_inv s) :
    sch_stable_inv (sch_step s op) := by
  cases op with
  | update n => exact h
  | run_later d => exact sch_stable_inv_push_sched s _ rfl h
  | run_at_intervals p imm =>
    cases imm with
    | false => exact sch_stable_inv_push_sched s _ rfl h
    | true =>
      obtain ⟨htl, hsq, hcross, htn, hsn⟩ := h
      refine ⟨htl, hsq, hcross, ?_, ?_⟩
      · show ∀ a ∈ s.timer_list, a.seq < s.next_seq + 1
        intro a ha
        have := htn a ha
        omega
      · show ∀ a ∈ s.schedule_queue, a.seq < s.next_seq + 1
        intro a ha
        have := hsn a ha
        omega
  | manage =>
    obtain ⟨htl, hsq, hcross, htn, hsn⟩ := h
    obtain ⟨hp, hm⟩ :=
      foldl_insert_timer_pairwise s.schedule_queue s.timer_list htl hsq hcross
    have hsub : List.Sublist
        ((s.schedule_queue.foldl uel_sch_insert_timer s.timer_list).dropWhile
          (fun e => decide (e.due_time ≤ s.timer)))
        (s.schedule_queue.foldl uel_sch_insert_timer s.timer_list) :=
      List.dropWhile_sublist _
    exact ⟨hp.sublist hsub, List.Pairwise.nil,
      fun a _ b hb => absurd hb (List.not_mem_nil b),
      fun a ha => (hm a (hsub.mem ha)).elim (htn a) (hsn a),
      fun a ha => absurd ha (List.not_mem_nil a)⟩
  | run => exact absurd rfl hop

theorem sch_stable_inv_reach (ops : List SOp)
    (hops : ∀ op ∈ ops, op ≠ SOp.run) (s : uel_scheduler)
    (h : sch_stable_inv s) : sch_stable_inv (sch_reach s ops) := by
  induction ops generalizing s with
  | nil => exact h
  | cons op ops ih =>
    exact ih (fun o ho => hops o (List.mem_cons_of_mem op ho)) _
      (sch_stable_inv_step s op (hops op (List.mem_cons_self op ops)) h)

/-- C3: after every sequence of `run_later` / `run_at_intervals` calls
interleaved with `manage_timers` (and timer updates), the scheduler's timer
list is sorted by `due_time`, non-decreasing from head to tail, and timers
with equal due time appear in the order they were configured (stable ties,
witnessed by the strictly increasing `seq` tags). -/
theorem claim_C3_timer_list_sorted_stable (ops : List SOp)
    (hops : ∀ op ∈ ops, op ≠ SOp.run) :
    List.Pairwise sch_before (sch_reach uel_sch_init ops).timer_list :=
  (sch_stable_inv_reach ops hops uel_sch_init sch_stable_inv_init).1

/-- Witness for C3: three timers with equal due times inserted across two
`manage_timers` calls end up stably sorted. -/
theorem claim_C3_witness :
    List.Pairwise sch_before
      (sch_reach uel_sch_init
        [SOp.run_later 10, SOp.run_later 10, SOp.manage,
         SOp.run_at_intervals 10 false, SOp.manage]).timer_list :=
  claim_C3_timer_list_sorted_stable
    [SOp.run_later 10, SOp.run_later 10, SOp.manage,
     SOp.run_at_intervals 10 false, SOp.manage] (by decide)

/-- Non-decreasing due-time order. -/
def due_le (a b : uel_event) : Prop :=
  a.due_time ≤ b.due_time

instance (a b : uel_event) : Decidable (due_le a b) :=
  inferInstanceAs (Decidable (_ ≤ _))

theorem insert_timer_pairwise_due (l : List uel_event) (e : uel_event)
    (hp : List.Pairwise due_le l) :
    List.Pairwise due_le (uel_sch_insert_timer l e) := by
  induction l with
  | nil => simp [uel_sch_insert_timer]
  | cons x xs ih =>
    rw [List.pairwise_cons] at hp
    obtain ⟨hx, hxs⟩ := hp
    simp only [uel_sch_insert_timer]
    by_cases h : e.due_time < x.due_time
    · rw [if_pos h]
      rw [List.pairwise_cons]
      refine ⟨?_, List.pairwise_cons.mpr ⟨hx, hxs⟩⟩
      intro y hy
      rcases List.mem_cons.mp hy with rfl | hy'
      · exact Nat.le_of_lt h
      · have := hx y hy'
        unfold due_le at this ⊢
        omega
    · rw [if_neg h]
      rw [List.pairwise_cons]
      refine ⟨?_, ih hxs⟩
      intro y hy
      rcases insert_timer_mem xs e y hy with rfl | hy'
      · unfold due_le
        omega
      · exact hx y hy'

theorem foldl_insert_timer_pairwise_due (q l : List uel_event)
    (hl : List.Pairwise due_le l) :
    List.Pairwise due_le (q.foldl uel_sch_insert_timer l) := by
  induction q generalizing l with
  | nil => exact hl
  | cons b q ih =>
    exact ih (uel_sch_insert_timer l b) (insert_timer_pairwise_due l b hl)

theorem sch_due_sorted_step (s : uel_scheduler) (op : SOp)
    (h : List.Pairwise due_le s.timer_list) :
    List.Pairwise due_le (sch_step s op).timer_list := by
  cases op with
  | update n => exact h
  | run_later d => exact h
  | run_at_intervals p imm =>
    cases imm with
    | false => exact h
    | true => exact h
  | manage =>
    exact (foldl_insert_timer_pairwise_due s.schedule_queue s.timer_list h).sublist
      (List.dropWhile_sublist _)
  | run => exact h

theorem sch_due_sorted_reach (ops : List SOp) (s : uel_scheduler)
    (h : List.Pairwise due_le s.timer_list) :
    List.Pairwise due_le (sch_reach s ops).timer_list := by
  induction ops generalizing s with
  | nil => exact h
  | cons op ops ih => exact ih _ (sch_due_sorted_step s op h)

theorem sorted_takeWhile_eq_filter (t : Nat) (l : List uel_event)
    (h : List.Pairwise due_le l) :
    l.takeWhile (fun e => decide (e.due_time ≤ t)) =
      l.filter (fun e => decide (e.due_time ≤ t)) ∧
    l.dropWhile (fun e => decide (e.due_time ≤ t)) =
      l.filter (fun e => ! decide (e.due_time ≤ t)) := by
  induction l with
  | nil => simp
  | cons x xs ih =>
    rw [List.pairwise_cons] at h
    obtain ⟨hx, hxs⟩ := h
    by_cases hxt : x.due_time ≤ t
    · have hdt : (decide (x.due_time ≤ t)) = true := by simp [hxt]
      obtain ⟨ih1, ih2⟩ := ih hxs
      constructor
      · rw [List.takeWhile_cons, List.filter_cons, hdt]
        simp [ih1]
      · rw [List.dropWhile_cons, List.filter_cons, hdt]
        simp [ih2]
    · have hall : ∀ y ∈ xs, ¬ y.due_time ≤ t := by
        intro y hy
        have := hx y hy
        unfold due_le at this
        omega
      have hdt : (decide (x.due_time ≤ t)) = false := by simp [hxt]
      have hfn : List.filter (fun e => decide (e.due_time ≤ t)) xs = [] :=
        List.filter_eq_nil_iff.mpr (fun y hy => by simp [hall y hy])
      have hfs : List.filter (fun e => ! decide (e.due_time ≤ t)) xs = xs :=
        List.filter_eq_self.mpr (fun y hy => by simp [hall y hy])
      constructor
      · rw [List.takeWhile_cons, List.filter_cons, hdt, hfn]
        simp
      · rw [List.dropWhile_cons, List.filter_cons, hdt, hfs]
        simp

/-- One application tick at the scheduler level: `manage_timers` first, then
the run loop — the schedule queue is drained strictly before the event
queue. -/
def sch_tick (s : uel_scheduler) : uel_scheduler :=
  uel_evloop_run_timers (uel_sch_manage_timers s)

/-- The timer list after `manage_timers` has drained the schedule queue into
it, before due timers are collected. -/
def sch_drained (s : uel_scheduler) : List uel_event :=
  s.schedule_queue.foldl uel_sch_insert_timer s.timer_list

/-- C4: in every tick from a reachable scheduler state, the schedule queue
is drained before the event queue: `manage_timers` empties the schedule
queue into the timer list, detaches from it exactly the timers with
`due_time ≤ timer` (pushing them to the event queue in list order, after the
events already queued), keeps exactly the others, and the run half of the
same tick dispatches precisely the whole event queue — so a timer due at
`t` is dispatched within the same tick whose `manage_timers` observes
`timer ≥ t`, and never in an earlier one. -/
theorem claim_C4_tick_dispatches_due (ops : List SOp) :
    (uel_sch_manage_timers (sch_reach uel_sch_init ops)).schedule_queue = [] ∧
    (uel_sch_manage_timers (sch_reach uel_sch_init ops)).event_queue =
      (sch_reach uel_sch_init ops).event_queue ++
        (sch_drained (sch_reach uel_sch_init ops)).filter
          (fun e => decide (e.due_time ≤ (sch_reach uel_sch_init ops).timer)) ∧
    (uel_sch_manage_timers (sch_reach uel_sch_init ops)).timer_list =
      (sch_drained (sch_reach uel_sch_init ops)).filter
        (fun e => ! decide (e.due_time ≤ (sch_reach uel_sch_init ops).timer)) ∧
    (sch_tick (sch_reach uel_sch_init ops)).dispatched =
      (sch_reach uel_sch_init ops).dispatched ++
        (uel_sch_manage_timers (sch_reach uel_sch_init ops)).event_queue ∧
    (sch_tick (sch_reach uel_sch_init ops)).event_queue = [] := by
  have hsorted : List.Pairwise due_le (sch_reach uel_sch_init ops).timer_list :=
    sch_due_sorted_reach ops uel_sch_init (by simp [uel_sch_init])
  have hdr : List.Pairwise due_le (sch_drained (sch_reach uel_sch_init ops)) :=
    foldl_insert_timer_pairwise_due _ _ hsorted
  obtain ⟨htake, hdrop⟩ :=
    sorted_takeWhile_eq_filter (sch_reach uel_sch_init ops).timer _ hdr
  refine ⟨rfl, ?_, ?_, rfl, rfl⟩
  · show (sch_reach uel_sch_init ops).event_queue ++
        (sch_drained (sch_reach uel_sch_init ops)).takeWhile
          (fun e => decide (e.due_time ≤ (sch_reach uel_sch_init ops).timer)) = _
    rw [htake]
  · show (sch_drained (sch_reach uel_sch_init ops)).dropWhile
        (fun e => decide (e.due_time ≤ (sch_reach uel_sch_init ops).timer)) = _
    rw [hdrop]

/-- The operations C2 quantifies over: timer updates, `manage_timers` and
run-loop calls (the claim is about one already-registered recurring timer;
no further registrations). -/
def sch_timer_only_op : SOp → Bool
  | SOp.update _ => true
  | SOp.manage => true
  | SOp.run => true
  | _ => false

/-- The single recurring timer of C2 after `k` firings. -/
def c2_ev (p t0 : Nat) (imm : Bool) (k : Nat) : uel_event :=
  { seq := 0, due_time := t0 + k * p, period := p
    repeating := true, immediate := imm }

/-- C2 trace invariant: the firings logged so far happened at exactly
`t0, t0 + p, …`, and the timer event sits in exactly one of the three
containers with due time `t0 + k * p`. -/
def c2_inv (p t0 : Nat) (imm : Bool) (s : uel_scheduler) (k : Nat) : Prop :=
  s.dispatched.map (fun e => e.due_time) =
    (List.range k).map (fun j => t0 + j * p) ∧
  ((s.schedule_queue = [c2_ev p t0 imm k] ∧ s.timer_list = [] ∧
      s.event_queue = []) ∨
   (s.schedule_queue = [] ∧ s.timer_list = [c2_ev p t0 imm k] ∧
      s.event_queue = []) ∨
   (s.schedule_queue = [] ∧ s.timer_list = [] ∧
      s.event_queue = [c2_ev p t0 imm k]))

theorem c2_inv_step (p t0 : Nat) (imm : Bool) (s : uel_scheduler) (k : Nat)
    (op : SOp) (hop : sch_timer_only_op op = true) (h : c2_inv p t0 imm s k) :
    ∃ k', c2_inv p t0 imm (sch_step s op) k' := by
  obtain ⟨hd, hloc⟩ := h
  cases op with
  | run_later d => simp [sch_timer_only_op] at hop
  | run_at_intervals q i => simp [sch_timer_only_op] at hop
  | update n => exact ⟨k, hd, hloc⟩
  | manage =>
    rcases hloc with ⟨h1, h2, h3⟩ | ⟨h1, h2, h3⟩ | ⟨h1, h2, h3⟩
    · have hdr : sch_drained s = [c2_ev p t0 imm k] := by
        rw [sch_drained, h1, h2]
        rfl
      by_cases hdue : (c2_ev p t0 imm k).due_time ≤ s.timer
      · refine ⟨k, hd, Or.inr (Or.inr ⟨rfl, ?_, ?_⟩)⟩
        · show (sch_drained s).dropWhile
              (fun e => decide (e.due_time ≤ s.timer)) = []
          rw [hdr]
          simp [hdue]
        · show s.event_queue ++ (sch_drained s).takeWhile
              (fun e => decide (e.due_time ≤ s.timer)) = [c2_ev p t0 imm k]
          rw [hdr, h3]
          simp [hdue]
      · refine ⟨k, hd, Or.inr (Or.inl ⟨rfl, ?_, ?_⟩)⟩
        · show (sch_drained s).dropWhile
              (fun e => decide (e.due_time ≤ s.timer)) = [c2_ev p t0 imm k]
          rw [hdr]
          simp [hdue]
        · show s.event_queue ++ (sch_drained s).takeWhile
              (fun e => decide (e.due_time ≤ s.timer)) = []
          rw [hdr, h3]
          simp [hdue]
    · have hdr : sch_drained s = [c2_ev p t0 imm k] := by
        rw [sch_drained, h1, h2]
        rfl
      by_cases hdue : (c2_ev p t0 imm k).due_time ≤ s.timer
      · refine ⟨k, hd, Or.inr (Or.inr ⟨rfl, ?_, ?_⟩)⟩
        · show (sch_drained s).dropWhile
              (fun e => decide (e.due_time ≤ s.timer)) = []
          rw [hdr]
          simp [hdue]
        · show s.event_queue ++ (sch_drained s).takeWhile
              (fun e => decide (e.due_time ≤ s.timer)) = [c2_ev p t0 imm k]
          rw [hdr, h3]
          simp [hdue]
      · refine ⟨k, hd, Or.inr (Or.inl ⟨rfl, ?_, ?_⟩)⟩
        · show (sch_drained s).dropWhile
              (fun e => decide (e.due_time ≤ s.timer)) = [c2_ev p t0 imm k]
          rw [hdr]
          simp [hdue]
        · show s.event_queue ++ (sch_drained s).takeWhile
              (fun e => decide (e.due_time ≤ s.timer)) = []
          rw [hdr, h3]
          simp [hdue]
    · have hdr : sch_drained s = [] := by
        rw [sch_drained, h1, h2]
        rfl
      refine ⟨k, hd, Or.inr (Or.inr ⟨rfl, ?_, ?_⟩)⟩
      · show (sch_drained s).dropWhile
            (fun e => decide (e.due_time ≤ s.timer)) = []
        rw [hdr]
        rfl
      · show s.event_queue ++ (sch_drained s).takeWhile
            (fun e => decide (e.due_time ≤ s.timer)) = [c2_ev p t0 imm k]
        rw [hdr, h3]
        simp
  | run =>
    rcases hloc with ⟨h1, h2, h3⟩ | ⟨h1, h2, h3⟩ | ⟨h1, h2, h3⟩
    · refine ⟨k, ?_, Or.inl ⟨?_, h2, rfl⟩⟩
      · show (s.dispatched ++ s.event_queue).map (fun e => e.due_time) = _
        rw [h3, List.append_nil]
        exact hd
      · show s.schedule_queue ++ (s.event_queue.filter (fun e => e.repeating)).map
            (fun e => { e with due_time := e.due_time + e.period }) =
          [c2_ev p t0 imm k]
        rw [h1, h3]
        simp
    · refine ⟨k, ?_, Or.inr (Or.inl ⟨?_, h2, rfl⟩)⟩
      · show (s.dispatched ++ s.event_queue).map (fun e => e.due_time) = _
        rw [h3, List.append_nil]
        exact hd
      · show s.schedule_queue ++ (s.event_queue.filter (fun e => e.repeating)).map
            (fun e => { e with due_time := e.due_time + e.period }) = []
        rw [h1, h3]
        simp
    · refine ⟨k + 1, ?_, Or.inl ⟨?_, h2, rfl⟩⟩
      · show (s.dispatched ++ s.event_queue).map (fun e => e.due_time) =
          (List.range (k + 1)).map (fun j => t0 + j * p)
        rw [h3, List.map_append, hd, List.range_succ, List.map_append]
        simp [c2_ev]
      · show s.schedule_queue ++ (s.event_queue.filter (fun e => e.repeating)).map
            (fun e => { e with due_time := e.due_time + e.period }) =
          [c2_ev p t0 imm (k + 1)]
        rw [h1, h3]
        have harith : t0 + k * p + p = t0 + (k + 1) * p := by ring
        simp [c2_ev]
        exact harith

theorem c2_inv_reach (p t0 : Nat) (imm : Bool) (ops : List SOp)
    (hops : ∀ op ∈ ops, sch_timer_only_op op = true) (s : uel_scheduler)
    (k : Nat) (h : c2_inv p t0 imm s k) :
    ∃ k', c2_inv p t0 imm (sch_reach s ops) k' := by
  induction ops generalizing s k with
  | nil => exact ⟨k, h⟩
  | cons op ops ih =>
    obtain ⟨k', h'⟩ :=
      c2_inv_step p t0 imm s k op (hops op (List.mem_cons_self op ops)) h
    exact ih (fun o ho => hops o (List.mem_cons_of_mem op ho)) _ k' h'

theorem c2_inv_initial (p tc : Nat) (imm : Bool) :
    c2_inv p (if imm then tc else tc + p) imm
      (uel_sch_run_at_intervals (uel_sch_update_timer uel_sch_init tc) p imm)
      0 := by
  cases imm with
  | true =>
    refine ⟨by simp [uel_sch_run_at_intervals, uel_sch_update_timer,
      uel_sch_init], Or.inr (Or.inr ⟨rfl, rfl, ?_⟩)⟩
    show [uel_event_config_timer 0 p true true tc] = [c2_ev p tc true 0]
    simp [uel_event_config_timer, c2_ev]
  | false =>
    have hif : (if (false : Bool) then tc else tc + p) = tc + p := rfl
    rw [hif]
    refine ⟨by simp [uel_sch_run_at_intervals, uel_sch_update_timer,
      uel_sch_init], Or.inl ⟨?_, rfl, rfl⟩⟩
    simp [uel_sch_run_at_intervals, uel_sch_update_timer, uel_sch_init,
      uel_event_config_timer, c2_ev]

/-- C2: for a recurring timer with period `p` registered at time `tc`
(first due at `t₀ = tc` when immediate, `tc + p` otherwise), under every
schedule of `update_timer` / `manage_timers` / run-loop calls, however late
they run, the sequence of due times at which the timer is dispatched is
exactly `t₀, t₀ + p, t₀ + 2p, …` — each firing reschedules at
`previous_due_time + p`, never at `current timer + p`. -/
theorem claim_C2_recurring_no_drift (p tc : Nat) (imm : Bool) (ops : List SOp)
    (hops : ∀ op ∈ ops, sch_timer_only_op op = true) :
    (sch_reach
        (uel_sch_run_at_intervals (uel_sch_update_timer uel_sch_init tc) p imm)
        ops).dispatched.map (fun e => e.due_time) =
      (List.range
        (sch_reach
          (uel_sch_run_at_intervals (uel_sch_update_timer uel_sch_init tc) p imm)
          ops).dispatched.length).map
        (fun j => (if imm then tc else tc + p) + j * p) := by
  obtain ⟨k, hd, _⟩ :=
    c2_inv_reach p (if imm then tc else tc + p) imm ops hops _ 0
      (c2_inv_initial p tc imm)
  have hlen : (sch_reach
      (uel_sch_run_at_intervals (uel_sch_update_timer uel_sch_init tc) p imm)
      ops).dispatched.length = k := by
    have := congrArg List.length hd
    simpa using this
  rw [hlen]
  exact hd

/-- Witness for C2: an immediate 100 ms recurring timer registered at t=0,
run at t=0 and again after a late `manage_timers` at t=100, fires at due
times 0 and 100. -/
theorem claim_C2_witness :
    (sch_reach
        (uel_sch_run_at_intervals (uel_sch_update_timer uel_sch_init 0) 100 true)
        [SOp.run, SOp.update 100, SOp.manage, SOp.run]).dispatched.map
          (fun e => e.due_time) =
      (List.range
        (sch_reach
          (uel_sch_run_at_intervals (uel_sch_update_timer uel_sch_init 0) 100 true)
          [SOp.run, SOp.update 100, SOp.manage, SOp.run]).dispatched.length).map
        (fun j => (if true then 0 else 0 + 100) + j * 100) :=
  claim_C2_recurring_no_drift 100 0 true
    [SOp.run, SOp.update 100, SOp.manage, SOp.run] (by decide)

/-- Counterexample to C5 as stated: `run_at_intervals(500, immediate=true,
closure)` on a fresh scheduler pushes the configured event to the event
queue, leaving the schedule queue empty — contradicting the claim that every
successful `run_at_intervals` pushes onto the schedule queue for both values
of the `immediate` flag (this matches the repository test
`should_proxy_functions`, where the immediate registration increments the
enqueued-events count and not the scheduled-events count). -/
theorem claim_C5_counterexample :
    (uel_sch_run_at_intervals uel_sch_init 500 true).schedule_queue = [] ∧
    (uel_sch_run_at_intervals uel_sch_init 500 true).event_queue ≠ [] := by
  decide

/-- C5 (amended): every `run_later(delay, closure)` and every non-immediate
`run_at_intervals(period, false, closure)` push the newly configured timer
event onto the schedule queue (never the event queue), the two configured
events differing only in `repeating := true`; an immediate
`run_at_intervals(period, true, closure)` instead pushes the event — with
`repeating := true`, `immediate := true` and `due_time = timer` — directly
onto the event queue, leaving the schedule queue untouched. -/
theorem claim_C5_schedule_destination (s : uel_scheduler) (delay p : Nat) :
    (uel_sch_run_later s delay).schedule_queue =
      s.schedule_queue ++ [uel_event_config_timer s.next_seq delay false false s.timer] ∧
    (uel_sch_run_later s delay).event_queue = s.event_queue ∧
    (uel_sch_run_at_intervals s p false).schedule_queue =
      s.schedule_queue ++
        [{ uel_event_config_timer s.next_seq p false false s.timer with
            repeating := true }] ∧
    (uel_sch_run_at_intervals s p false).event_queue = s.event_queue ∧
    (uel_sch_run_at_intervals s p true).event_queue =
      s.event_queue ++
        [{ uel_event_config_timer s.next_seq p false false s.timer with
            repeating := true, immediate := true, due_time := s.timer }] ∧
    (uel_sch_run_at_intervals s p true).schedule_queue = s.schedule_queue := by
  refine ⟨rfl, rfl, ?_, rfl, ?_, rfl⟩
  · show s.schedule_queue ++ [uel_event_config_timer s.next_seq p true false s.timer] = _
    simp [uel_event_config_timer]
  · show s.event_queue ++ [uel_event_config_timer s.next_seq p true true s.timer] = _
    simp [uel_event_config_timer]

/-- C10: `app_init` and every `app_update_timer` leave the `run_scheduler`
flag set; every `app_tick` leaves it cleared; and a tick that finds the flag
cleared skips `manage_timers` entirely while still running the event loop. -/
theorem claim_C10_run_scheduler_flag :
    uel_app_init.run_scheduler = true ∧
    (∀ (a : uel_application) (n : Nat),
      (uel_app_update_timer a n).run_scheduler = true) ∧
    (∀ a : uel_application, (uel_app_tick a).run_scheduler = false) ∧
    (∀ a : uel_application, a.run_scheduler = false →
      uel_app_tick a =
        { scheduler := uel_evloop_run_timers a.scheduler
          run_scheduler := false }) := by
  refine ⟨rfl, fun a n => rfl, fun a => rfl, ?_⟩
  intro a hflag
  rw [uel_app_tick, hflag]
  simp

/-- Witness for C10: the second consecutive tick after `app_init` finds the
flag cleared and only runs the loop. -/
theorem claim_C10_witness :
    uel_app_tick (uel_app_tick uel_app_init) =
      { scheduler := uel_evloop_run_timers (uel_app_tick uel_app_init).scheduler
        run_scheduler := false } :=
  claim_C10_run_scheduler_flag.2.2.2 (uel_app_tick uel_app_init) rfl

/- ### Resource exhaustion (system pools / queues, acquisition paths) -/

/-- Modelled from the spec: the event queue holds `2^5` slots
(`uel_config.h`). -/
def UEL_EVENT_QUEUE_CAPACITY : Nat := 32

/-- Modelled from the spec: the schedule queue holds `2^4` slots
(`uel_config.h`). -/
def UEL_SCHEDULE_QUEUE_CAPACITY : Nat := 16

/-- Modelled from the spec: the resource-level state of the system
containers (the missing `system-pools.c` / `system-queues.c`) — the free
handle lists of the event pool and the linked-list-node pool (head = next
handle given out, releases push at the back, as the pools are backed by
circular queues), and the two bounded queues of event handles. -/
structure uel_syscontainers where
  event_free : List Nat
  node_free : List Nat
  event_queue : List Nat
  schedule_queue : List Nat
deriving DecidableEq, Repr

/-- Modelled from the spec: `uel_evloop_enqueue_closure` at the resource
level — acquires an event from the event pool and pushes it to the bounded
event queue; on pool exhaustion returns the `none` sentinel untouched, on
queue exhaustion releases the acquired event back to the pool and returns
`none`. -/
def res_enqueue_closure (s : uel_syscontainers) :
    Option Nat × uel_syscontainers :=
  match s.event_free with
  | [] => (none, s)
  | e :: rest =>
    if s.event_queue.length < UEL_EVENT_QUEUE_CAPACITY then
      (some e, { s with event_free := rest
                        event_queue := s.event_queue ++ [e] })
    else
      (none, { s with event_free := rest ++ [e] })

/-- Modelled from the spec: `uel_sch_run_later` at the resource level —
acquires an event and a linked-list node, pushes the event to the bounded
schedule queue; every failure releases whatever was already acquired and
returns the `none` sentinel. -/
def res_run_later (s : uel_syscontainers) : Option Nat × uel_syscontainers :=
  match s.event_free with
  | [] => (none, s)
  | e :: rest =>
    match s.node_free with
    | [] => (none, { s with event_free := rest ++ [e] })
    | n :: nrest =>
      if s.schedule_queue.length < UEL_SCHEDULE_QUEUE_CAPACITY then
        (some e, { s with event_free := rest
                          node_free := nrest
                          schedule_queue := s.schedule_queue ++ [e] })
      else
        (none, { s with event_free := rest ++ [e]
                        node_free := nrest ++ [n] })

/-- Modelled from the spec: `uel_sch_run_at_intervals` at the resource
level — as `res_run_later`, but an immediate timer goes to the bounded
event queue (per the repository test `should_proxy_functions`) and a
non-immediate one to the bounded schedule queue. -/
def res_run_at_intervals (s : uel_syscontainers) (immediate : Bool) :
    Option Nat × uel_syscontainers :=
  match s.event_free with
  | [] => (none, s)
  | e :: rest =>
    match s.node_free with
    | [] => (none, { s with event_free := rest ++ [e] })
    | n :: nrest =>
      if immediate then
        if s.event_queue.length < UEL_EVENT_QUEUE_CAPACITY then
          (some e, { s with event_free := rest
                            node_free := nrest
                            event_queue := s.event_queue ++ [e] })
        else
          (none, { s with event_free := rest ++ [e]
                          node_free := nrest ++ [n] })
      else
        if s.schedule_queue.length < UEL_SCHEDULE_QUEUE_CAPACITY then
          (some e, { s with event_free := rest
                            node_free := nrest
                            schedule_queue := s.schedule_queue ++ [e] })
        else
          (none, { s with event_free := rest ++ [e]
                          node_free := nrest ++ [n] })

/-- Counterexample to C6 as stated: `run_later` on a state with two free
events and an exhausted node pool returns `none` and releases the acquired
event, but the pools are *not* left in the state they had before the call —
the event pool's free queue is rotated (the released handle is pushed at
the back). Only the multiset of free handles is restored. -/
theorem claim_C6_counterexample :
    (res_run_later { event_free := [0, 1], node_free := []
                     event_queue := [], schedule_queue := [] }).1 = none ∧
    (res_run_later { event_free := [0, 1], node_free := []
                     event_queue := [], schedule_queue := [] }).2 ≠
      { event_free := [0, 1], node_free := []
        event_queue := [], schedule_queue := [] } := by
  decide

/-- C6 (amended): whenever `run_later`, `run_at_intervals` or
`enqueue_closure` hits resource exhaustion (event pool, node pool or
destination queue) it returns the `none` sentinel and releases every
resource it had acquired for that call, so each pool holds exactly the same
multiset of free handles as before (its free queue possibly rotated) and
both queues are unchanged; and whenever the needed pools are non-empty and
the destination queue is below capacity — e.g. after a subsequent `run`
frees resources — the same operation succeeds. -/
theorem claim_C6_exhaustion_releases_and_recovers (s : uel_syscontainers)
    (imm : Bool) :
    ((res_enqueue_closure s).1 = none →
      List.Perm (res_enqueue_closure s).2.event_free s.event_free ∧
      (res_enqueue_closure s).2.node_free = s.node_free ∧
      (res_enqueue_closure s).2.event_queue = s.event_queue ∧
      (res_enqueue_closure s).2.schedule_queue = s.schedule_queue) ∧
    ((res_run_later s).1 = none →
      List.Perm (res_run_later s).2.event_free s.event_free ∧
      List.Perm (res_run_later s).2.node_free s.node_free ∧
      (res_run_later s).2.event_queue = s.event_queue ∧
      (res_run_later s).2.schedule_queue = s.schedule_queue) ∧
    ((res_run_at_intervals s imm).1 = none →
      List.Perm (res_run_at_intervals s imm).2.event_free s.event_free ∧
      List.Perm (res_run_at_intervals s imm).2.node_free s.node_free ∧
      (res_run_at_intervals s imm).2.event_queue = s.event_queue ∧
      (res_run_at_intervals s imm).2.schedule_queue = s.schedule_queue) ∧
    (s.event_free ≠ [] → s.event_queue.length < UEL_EVENT_QUEUE_CAPACITY →
      (res_enqueue_closure s).1.isSome = true) ∧
    (s.event_free ≠ [] → s.node_free ≠ [] →
      s.schedule_queue.length < UEL_SCHEDULE_QUEUE_CAPACITY →
      (res_run_later s).1.isSome = true) ∧
    (s.event_free ≠ [] → s.node_free ≠ [] →
      s.event_queue.length < UEL_EVENT_QUEUE_CAPACITY →
      s.schedule_queue.length < UEL_SCHEDULE_QUEUE_CAPACITY →
      (res_run_at_intervals s imm).1.isSome = true) := by
  refine ⟨?_, ?_, ?_, ?_, ?_, ?_⟩
  · cases hef : s.event_free with
    | nil =>
      intro _
      simp [res_enqueue_closure, hef]
    | cons e rest =>
      by_cases hq : s.event_queue.length < UEL_EVENT_QUEUE_CAPACITY
      · intro hnone
        simp [res_enqueue_closure, hef, hq] at hnone
      · intro _
        simp [res_enqueue_closure, hef, hq, List.perm_append_singleton]
  · cases hef : s.event_free with
    | nil =>
      intro _
      simp [res_run_later, hef]
    | cons e rest =>
      cases hnf : s.node_free with
      | nil =>
        intro _
        simp [res_run_later, hef, hnf, List.perm_append_singleton]
      | cons n nrest =>
        by_cases hq : s.schedule_queue.length < UEL_SCHEDULE_QUEUE_CAPACITY
        · intro hnone
          simp [res_run_later, hef, hnf, hq] at hnone
        · intro _
          simp [res_run_later, hef, hnf, hq, List.perm_append_singleton]
  · cases hef : s.event_free with
    | nil =>
      intro _
      simp [res_run_at_intervals, hef]
    | cons e rest =>
      cases hnf : s.node_free with
      | nil =>
        intro _
        simp [res_run_at_intervals, hef, hnf, List.perm_append_singleton]
      | cons n nrest =>
        cases imm with
        | true =>
          by_cases hq : s.event_queue.length < UEL_EVENT_QUEUE_CAPACITY
          · intro hnone
            simp [res_run_at_intervals, hef, hnf, hq] at hnone
          · intro _
            simp [res_run_at_intervals, hef, hnf, hq,
              List.perm_append_singleton]
        | false =>
          by_cases hq : s.schedule_queue.length < UEL_SCHEDULE_QUEUE_CAPACITY
          · intro hnone
            simp [res_run_at_intervals, hef, hnf, hq] at hnone
          · intro _
            simp [res_run_at_intervals, hef, hnf, hq,
              List.perm_append_singleton]
  · intro hne hq
    cases hef : s.event_free with
    | nil => exact absurd hef hne
    | cons e rest => simp [res_enqueue_closure, hef, hq]
  · intro hne hnn hq
    cases hef : s.event_free with
    | nil => exact absurd hef hne
    | cons e rest =>
      cases hnf : s.node_free with
      | nil => exact absurd hnf hnn
      | cons n nrest => simp [res_run_later, hef, hnf, hq]
  · intro hne hnn hqe hqs
    cases hef : s.event_free with
    | nil => exact absurd hef hne
    | cons e rest =>
      cases hnf : s.node_free with
      | nil => exact absurd hnf hnn
      | cons n nrest =>
        cases imm with
        | true => simp [res_run_at_intervals, hef, hnf, hqe]
        | false => simp [res_run_at_intervals, hef, hnf, hqs]

/-- Witness for C6: with two free events and no free nodes, `run_later`
fails and the free-handle multiset is preserved; with one free event and an
empty event queue, `enqueue_closure` succeeds. -/
theorem claim_C6_witness :
    List.Perm
      (res_run_later { event_free := [0, 1], node_free := []
                       event_queue := [], schedule_queue := [] }).2.event_free
      [0, 1] ∧
    (res_enqueue_closure { event_free := [7], node_free := []
                           event_queue := []
                           schedule_queue := [] }).1.isSome = true := by
  have h := claim_C6_exhaustion_releases_and_recovers
    { event_free := [0, 1], node_free := [], event_queue := [],
      schedule_queue := [] } true
  have h' := claim_C6_exhaustion_releases_and_recovers
    { event_free := [7], node_free := [], event_queue := [],
      schedule_queue := [] } true
  exact ⟨(h.2.1 (by decide)).1, h'.2.2.2.1 (by decide) (by decide)⟩

/- ### Signal relay (system/signal) -/

/-- Modelled from the spec: a SIGNAL_LISTENER event of the missing
`system/event.c` / `system/signal.c` — the signal listened to, the
`listening` and `recurring` flags, and the bound closure's id. -/
structure uel_listener where
  signal_id : Nat
  listening : Bool
  recurring : Bool
  closure_id : Nat
deriving DecidableEq, Repr

/-- Modelled from the spec: the signal relay composed with the event loop.
`store` stands for the event pool's backing storage: listener events are
shared by handle between the relay's listener lists and the event queue, so
`unlisten` is visible to a later `run`. `signal_vector` maps each signal id
to its listener handles in insertion order; `invoked` logs the closure ids
the run loop invokes. -/
structure uel_signal_relay where
  store : Nat → uel_listener
  signal_vector : Nat → List Nat
  event_queue : List Nat
  free_events : List Nat
  invoked : List Nat

/-- Modelled from the spec: a relay over empty listener lists with the given
free event handles. -/
def uel_signal_relay_init (free : List Nat) : uel_signal_relay :=
  { store := fun _ =>
      { signal_id := 0, listening := false, recurring := false
        closure_id := 0 }
    signal_vector := fun _ => []
    event_queue := []
    free_events := free
    invoked := [] }

/-- Modelled from the spec: `uel_signal_listen` — acquires an event,
configures it as a recurring SIGNAL_LISTENER with `listening := true`, and
pushes its node at the tail of the signal's listener list; `none` on pool
exhaustion. -/
def uel_signal_listen (r : uel_signal_relay) (sig cid : Nat) :
    Option Nat × uel_signal_relay :=
  match r.free_events with
  | [] => (none, r)
  | i :: rest =>
    (some i,
      { r with
          free_events := rest
          store := fun j =>
            if j = i then
              { signal_id := sig, listening := true, recurring := true
                closure_id := cid }
            else r.store j
          signal_vector := fun t =>
            if t = sig then r.signal_vector t ++ [i]
            else r.signal_vector t })

/-- Modelled from the spec: `uel_signal_emit` — walks the signal's listener
list in insertion order, pushes every still-listening listener event to the
event queue, and removes non-listening nodes from the list. -/
def uel_signal_emit (r : uel_signal_relay) (sig : Nat) : uel_signal_relay :=
  { r with
      event_queue := r.event_queue ++
        (r.signal_vector sig).filter (fun i => (r.store i).listening)
      signal_vector := fun t =>
        if t = sig then
          (r.signal_vector t).filter (fun i => (r.store i).listening)
        else r.signal_vector t }

/-- Modelled from the spec: `uel_signal_unlisten` — marks the listener event
as no longer listening; the node is removed when the signal is next emitted
or when the listener event is next dequeued by the run loop. -/
def uel_signal_unlisten (r : uel_signal_relay) (i : Nat) : uel_signal_relay :=
  { r with
      store := fun j =>
        if j = i then { r.store j with listening := false } else r.store j }

/-- Modelled from the spec: the SIGNAL_LISTENER dispatch of `uel_evloop_run`
in the missing `system/event-loop.c` — a dequeued listener event found with
`listening = false` is released to the pool without invoking its closure and
its node is removed from the relay's listener list; a one-shot listener is
invoked, marked non-listening, released and detached; a recurring listener
is invoked and left alive (the relay owns it). -/
def uel_signal_dispatch (r : uel_signal_relay) (i : Nat) : uel_signal_relay :=
  let L := r.store i
  if L.listening = false then
    { r with
        free_events := r.free_events ++ [i]
        signal_vector := fun t =>
          if t = L.signal_id then (r.signal_vector t).erase i
          else r.signal_vector t }
  else if L.recurring = false then
    { r with
        invoked := r.invoked ++ [L.closure_id]
        store := fun j =>
          if j = i then { L with listening := false } else r.store j
        free_events := r.free_events ++ [i]
        signal_vector := fun t =>
          if t = L.signal_id then (r.signal_vector t).erase i
          else r.signal_vector t }
  else
    { r with invoked := r.invoked ++ [L.closure_id] }

/-- Modelled from the spec: `uel_evloop_run` restricted to SIGNAL_LISTENER
events — dispatches the events present in the event queue, in order (the
listener dispatch never re-enqueues, so the entry snapshot is the whole
queue). -/
def uel_signal_evloop_run (r : uel_signal_relay) : uel_signal_relay :=
  r.event_queue.foldl uel_signal_dispatch { r with event_queue := [] }

/-- C9: registering a listener for signal `sig`, emitting `sig`, then
calling `unlisten` on the returned handle before the next `run` means the
run invokes no closure at all: the dequeued listener event is found
non-listening, is released back to the event pool, and its node is removed
from the relay's listener list for `sig`. -/
theorem claim_C9_unlisten_before_run (sig cid f : Nat) (fs : List Nat) :
    (uel_signal_listen (uel_signal_relay_init (f :: fs)) sig cid).1 =
      some f ∧
    (uel_signal_evloop_run (uel_signal_unlisten (uel_signal_emit
        (uel_signal_listen (uel_signal_relay_init (f :: fs)) sig cid).2 sig)
        f)).invoked = [] ∧
    (uel_signal_evloop_run (uel_signal_unlisten (uel_signal_emit
        (uel_signal_listen (uel_signal_relay_init (f :: fs)) sig cid).2 sig)
        f)).signal_vector sig = [] ∧
    (uel_signal_evloop_run (uel_signal_unlisten (uel_signal_emit
        (uel_signal_listen (uel_signal_relay_init (f :: fs)) sig cid).2 sig)
        f)).free_events = fs ++ [f] := by
  simp [uel_signal_listen, uel_signal_relay_init, uel_signal_emit,
    uel_signal_unlisten, uel_signal_evloop_run, uel_signal_dispatch]
